import Mathlib

set_option linter.unusedVariables false

/-! Verification development for the mcTranslate translation pipeline
(src/main.js): the concurrent, resumable "telephone game" translator.
The embedding covers the worker-pool queue (translateQueue), the recursive
document walker and per-leaf pass loop (translateJsonConcurrent), the
checkpoint record written on cancellation, and the resume-time configuration
resolution in main. -/

/-- JSON-like document tree (the lang file parsed by fs.readJson), matching the
node classification in translateJsonConcurrent (main.js lines 134-199): arrays,
non-null objects, strings, and other scalars. JS null has typeof "object" but
fails the truthiness guard on line 141, so it is a separate pass-through
constructor here. Object fields are kept in insertion order, as Object.keys
enumerates them. -/
inductive Json where
  | str (s : String)
  | num (n : Int)
  | bool (b : Bool)
  | null
  | arr (elems : List Json)
  | obj (fields : List (String × Json))
deriving Repr

/-- The shape of a Json tree: node type at every position, object key order,
array lengths, with string/scalar content erased. -/
inductive Shape where
  | sstr
  | snum
  | sbool
  | snull
  | sarr (elems : List Shape)
  | sobj (fields : List (String × Shape))
deriving Repr

mutual
/-- Shape of a node (content of string leaves and scalars erased). -/
def Json.shape : Json → Shape
  | .str _ => .sstr
  | .num _ => .snum
  | .bool _ => .sbool
  | .null => .snull
  | .arr elems => .sarr (shapeList elems)
  | .obj fields => .sobj (shapeObj fields)

/-- Shapes of a list of array elements. -/
def shapeList : List Json → List Shape
  | [] => []
  | x :: xs => x.shape :: shapeList xs

/-- Shapes of object fields, keeping keys and their order. -/
def shapeObj : List (String × Json) → List (String × Shape)
  | [] => []
  | (k, v) :: rest => (k, v.shape) :: shapeObj rest
end

/-- The progress map: JS object mapping leaf path strings to completed pass
counts (main.js, the `progress` parameter), modelled as an association list in
insertion order. -/
abbrev Progress := List (String × Nat)

/-- Property read `progress[path]` (none models a JS undefined lookup). -/
def progGet (p : Progress) (k : String) : Option Nat :=
  match p with
  | [] => none
  | (k', v) :: rest => if k' = k then some v else progGet rest k

/-- The numeric value the pass loop reads after the falsy-defaulting on
main.js line 154: an absent entry reads as 0. -/
def progGetD (p : Progress) (k : String) : Nat := (progGet p k).getD 0

/-- Property write `progress[path] = v`, preserving insertion order. -/
def progSet (p : Progress) (k : String) (v : Nat) : Progress :=
  match p with
  | [] => [(k, v)]
  | (k', v') :: rest => if k' = k then (k', v) :: rest else (k', v') :: progSet rest k v

/-- The yargs CLI argument record (main.js lines 18-28). The field for the
`--repeat` option is named repeatArg because `repeat` is a Lean tactic keyword. -/
structure Argv where
  mcVersion : Option String
  repeatArg : Int
  threads : Int
  startDelay : Int
  retryDelay : Int
  transEngine : String
  extraTransArgs : String
  engine : String
  resume : Bool
deriving Repr

/-- The record written to RESUME_FILE on cancellation: main.js line 183 writes
an object with fields json, progress and argv. NOTE: at that line the saved
`json` field is the string branch's `obj` parameter, i.e. the current leaf's
original string value. -/
structure ResumeData where
  json : Json
  progress : Progress
  argv : Argv
deriving Repr

/-- Outcome of one call to the translation backend (either engine branch:
the google-translate-api call on line 166, or transShellTranslate on line 164).
`err` models a rejected promise; `ret s` models a fulfilled call returning s,
possibly the empty string (which the forward-pass code then treats as a
failure via the `if (!text) throw` on line 170). -/
inductive TrOutcome where
  | err
  | ret (s : String)
deriving Repr

/-- Oracle environment for one string leaf. A logical clock t advances at each
backend call; `tr t text lang` is the outcome of the call made at clock t,
`langAt t` is the random language drawn at clock t, and `exitAt t` is the value
of the process-wide isExiting flag as observed at clock t (the flag can only
change during awaits, which the clock counts). -/
structure LeafEnv where
  tr : Nat → String → String → TrOutcome
  langAt : Nat → String
  exitAt : Nat → Bool

/-- Observable translation events of a leaf run: one `fwd` per forward backend
invocation (each attempt), one `pass` per completed forward pass (the line 171
log point), one `back` for the final back-translation invocation. -/
inductive Ev where
  | fwd (path : String) (passIdx : Nat) (lang : String)
  | pass (path : String) (passIdx : Nat)
  | back (path : String)
deriving Repr

/-- Result of the per-pass attempt loop: success with the new text, or exit
because isExiting was observed at the loop condition. -/
inductive InnerRes where
  | succ (t : Nat) (text : String)
  | cancel (t : Nat) (text : String)
deriving Repr

/-- The retry loop for one forward pass: main.js lines 159-177,
`while (!attemptSucceeded && !isExiting)`. Faithful details: on a thrown call
the text is unchanged; when the call returns the empty string the text has
already been overwritten (`text = res.text` precedes the emptiness check on
line 170) so the retry translates the empty string; a new random language is
drawn after the retry sleep (line 175); the loop condition re-reads isExiting
before each attempt. The fuel bounds the number of attempts modelled; none
models an unbounded retry sequence. -/
def stringAttemptLoop (env : LeafEnv) (path : String) (passIdx : Nat) :
    Nat → Nat → String → String → Option (InnerRes × List Ev)
  | 0, _, _, _ => none
  | fuel + 1, t, text, lang =>
    if env.exitAt t then some (.cancel t text, [])
    else
      match env.tr t text lang with
      | .ret s =>
        if s = "" then
          (stringAttemptLoop env path passIdx fuel (t + 1) s (env.langAt (t + 1))).map
            (fun r => (r.1, .fwd path passIdx lang :: r.2))
        else some (.succ (t + 1) s, [.fwd path passIdx lang])
      | .err =>
        (stringAttemptLoop env path passIdx fuel (t + 1) text (env.langAt (t + 1))).map
          (fun r => (r.1, .fwd path passIdx lang :: r.2))

/-- Result of a whole leaf run: the for loop fell through to the final
back-translation and returned text, or the cancellation branch on lines
182-185 saved a checkpoint and called process.exit. -/
inductive LeafRes where
  | finished (t : Nat) (text : String) (progress : Progress)
  | exited (saved : ResumeData)
deriving Repr

/-- The pass loop of the string branch: main.js lines 157-198,
`for (let i = progress[uniquePath]; i < times && !isExiting; i++)`.
`gas` is times - i, the number of iterations left, making the recursion
structural; the gas = 0 while i < times case is unreachable from
translateString. Per iteration: draw a language, run the attempt loop,
then (on either exit of the attempt loop) set progress[path] = i + 1
(line 179), and if isExiting save the resume record and exit (lines 182-185).
After the loop, lines 188-197: one single back-translation attempt to "en"
whose failure is swallowed, keeping the current text (and whose non-empty
check does not exist: even an empty result is kept). -/
def stringPassLoop (env : LeafEnv) (path : String) (origObj : String) (argv : Argv)
    (times : Nat) (fuel : Nat) :
    Nat → Nat → Nat → String → Progress → Option (LeafRes × List Ev) :=
  fun gas i t text progress =>
    if i < times ∧ env.exitAt t = false then
      match gas with
      | 0 => none
      | gas' + 1 =>
        match stringAttemptLoop env path i fuel t text (env.langAt t) with
        | none => none
        | some (.succ t' text', es) =>
          let progress' := progSet progress path (i + 1)
          if env.exitAt t' then
            some (.exited ⟨.str origObj, progress', argv⟩, es ++ [.pass path i])
          else
            (stringPassLoop env path origObj argv times fuel gas' (i + 1) t' text' progress').map
              (fun r => (r.1, es ++ .pass path i :: r.2))
        | some (.cancel t' text', es) =>
          let progress' := progSet progress path (i + 1)
          some (.exited ⟨.str origObj, progress', argv⟩, es)
    else
      match env.tr t text "en" with
      | .ret s => some (.finished (t + 1) s progress, [.back path])
      | .err => some (.finished (t + 1) text progress, [.back path])

/-- The string branch entry (main.js lines 152-157): the falsy check
`if (!progress[uniquePath]) progress[uniquePath] = 0` materializes an entry
(an absent entry and a stored 0 are both falsy), then the for loop starts at
pass index progress[uniquePath]. -/
def translateString (env : LeafEnv) (path : String) (argv : Argv) (times fuel : Nat)
    (s : String) (progress : Progress) : Option (LeafRes × List Ev) :=
  let p1 := if progGetD progress path = 0 then progSet progress path 0 else progress
  let start := progGetD p1 path
  stringPassLoop env path s argv times fuel (times - start) start 0 s p1

/-- Result of walking a subtree: a rebuilt tree with the updated progress map
and the event trace, or the whole-process exit triggered inside some leaf, or
stuck (a leaf's modelled retry fuel ran out, i.e. an unbounded retry run). -/
inductive WalkRes where
  | ok (result : Json) (progress : Progress) (events : List Ev)
  | exited (saved : ResumeData)
  | stuck
deriving Repr

/-- Walking result for a list of array elements. -/
inductive WalkListRes where
  | ok (results : List Json) (progress : Progress) (events : List Ev)
  | exited (saved : ResumeData)
  | stuck
deriving Repr

/-- Walking result for a list of object fields. -/
inductive WalkObjRes where
  | ok (results : List (String × Json)) (progress : Progress) (events : List Ev)
  | exited (saved : ResumeData)
  | stuck
deriving Repr

mutual
/-- translateJsonConcurrent (main.js lines 134-199). `env` assigns every path
its leaf oracle, modelling that each leaf independently interacts with the
backend. The dispatch of children through translateQueue is modelled by
in-order sequential traversal threading the shared progress map: the queue
assembles results positionally into the same slots regardless of completion
order (proved below about translateQueue), and concurrent leaves touch
disjoint progress keys. A process.exit inside any leaf aborts the whole walk.
Array children get path `pfx[i]`, object fields `pfx.key` (or `key` at the
root), as on lines 137 and 144. -/
def translateJsonConcurrent (env : String → LeafEnv) (argv : Argv) (times fuel : Nat) :
    Json → String → Progress → WalkRes
  | .arr elems, pfx, progress =>
    match translateArr env argv times fuel elems pfx 0 progress with
    | .ok rs p es => .ok (.arr rs) p es
    | .exited sv => .exited sv
    | .stuck => .stuck
  | .obj fields, pfx, progress =>
    match translateObj env argv times fuel fields pfx progress with
    | .ok rs p es => .ok (.obj rs) p es
    | .exited sv => .exited sv
    | .stuck => .stuck
  | .str s, pfx, progress =>
    match translateString (env pfx) pfx argv times fuel s progress with
    | none => .stuck
    | some (.finished _ text p, es) => .ok (.str text) p es
    | some (.exited sv, _) => .exited sv
  | .num n, _, progress => .ok (.num n) progress []
  | .bool b, _, progress => .ok (.bool b) progress []
  | .null, _, progress => .ok .null progress []

/-- The array branch of translateJsonConcurrent (lines 135-140): each element
at index i is walked at path `pfx[i]` and the results are reassembled in
element order. -/
def translateArr (env : String → LeafEnv) (argv : Argv) (times fuel : Nat) :
    List Json → String → Nat → Progress → WalkListRes
  | [], _, _, progress => .ok [] progress []
  | x :: xs, pfx, i, progress =>
    match translateJsonConcurrent env argv times fuel x (pfx ++ "[" ++ toString i ++ "]") progress with
    | .ok rx p1 e1 =>
      match translateArr env argv times fuel xs pfx (i + 1) p1 with
      | .ok rs p2 e2 => .ok (rx :: rs) p2 (e1 ++ e2)
      | .exited sv => .exited sv
      | .stuck => .stuck
    | .exited sv => .exited sv
    | .stuck => .stuck

/-- The object branch of translateJsonConcurrent (lines 141-151): each field
value is walked at path `pfx.key` (or `key` at the root) and the object is
rebuilt from the key/value pairs in original key order (the reduce on
line 151). -/
def translateObj (env : String → LeafEnv) (argv : Argv) (times fuel : Nat) :
    List (String × Json) → String → Progress → WalkObjRes
  | [], _, progress => .ok [] progress []
  | (k, v) :: rest, pfx, progress =>
    match translateJsonConcurrent env argv times fuel v (if pfx = "" then k else pfx ++ "." ++ k) progress with
    | .ok rv p1 e1 =>
      match translateObj env argv times fuel rest pfx p1 with
      | .ok rs p2 e2 => .ok ((k, rv) :: rs) p2 (e1 ++ e2)
      | .exited sv => .exited sv
      | .stuck => .stuck
    | .exited sv => .exited sv
    | .stuck => .stuck
end

/-- One worker's retry loop for a claimed item (main.js lines 119-126): retry
with a sleep(retryDelay) between attempts until the translator call resolves.
`taskRun k` is the outcome of the k-th invocation of translator(items[i], i)
for the claimed item (none models a rejected promise). Returns the accepted
value, the index of the successful invocation plus one (the total number of
invocations when the loop starts at attempt 0), and the list of retry sleep
durations performed. The fuel bounds the modelled attempts; none models an
unbounded failure run. -/
def retryLoop (taskRun : Nat → Option β) (retryDelay : Nat) : Nat → Nat → Option (β × Nat × List Nat)
  | 0, _ => none
  | fuel + 1, k =>
    match taskRun k with
    | some v => some (v, k + 1, [])
    | none =>
      (retryLoop taskRun retryDelay fuel (k + 1)).map
        (fun r => (r.1, r.2.1, retryDelay :: r.2.2))

/-- The loop body of a worker as it affects the shared results array
(main.js line 121, `results[i] = await translator(items[i], i)` after the
retry loop accepts a value): slot i receives item i's accepted value. -/
def poolStep (taskRun : Nat → Nat → Option β) (retryDelay fuel : Nat)
    (acc : Option (List (Option β))) (i : Nat) : Option (List (Option β)) :=
  acc.bind (fun res =>
    (retryLoop (taskRun i) retryDelay fuel 0).map (fun r => res.set i (some r.1)))

/-- translateQueue (main.js lines 109-131), modelled for cancellation-free
runs. With workerCount = 0 (JS falsy, line 110) every item is dispatched once
through Promise.all; a single rejection rejects the whole call (there is no
retry on this path), modelled as none. Otherwise workerCount workers pull
items from a shared cursor (`const i = index++`), so each index is claimed
exactly once and each claimed item is retried until success; the accepted
value lands positionally in results[i]. `sched` is the order in which item
slots complete, an arbitrary interleaving of the workers. startDelay only
staggers worker starts and is not observable in the results, so it is not a
parameter of the model. -/
def translateQueue (n workerCount : Nat) (taskRun : Nat → Nat → Option β)
    (retryDelay fuel : Nat) (sched : List Nat) : Option (List (Option β)) :=
  if workerCount = 0 then
    if (List.range n).all (fun i => (taskRun i 0).isSome) then
      some ((List.range n).map (fun i => taskRun i 0))
    else none
  else
    sched.foldl (poolStep taskRun retryDelay fuel) (some (List.replicate n (none : Option β)))

/-- JS `a || b` for a possibly-absent number: 0 is falsy, like undefined. -/
def orNum (a : Option Int) (b : Int) : Int :=
  match a with
  | some v => if v = 0 then b else v
  | none => b

/-- JS `a || b` for a possibly-absent string: "" is falsy, like undefined. -/
def orStr (a : Option String) (b : String) : String :=
  match a with
  | some v => if v = "" then b else v
  | none => b

/-- The configuration the run actually uses after main's resolution. -/
structure ResolvedConfig where
  version : String
  repeatCount : Int
  threads : Int
  startDelay : Int
  retryDelay : Int
  transEngine : String
  extraTransArgs : String
  engine : String
deriving Repr

/-- The configuration resolution of main (main.js lines 216-223): each field
is `resumeData?.argv?.field || argv.field`, with the further fallbacks
`|| manifest.latest.release` for the version and `|| repeatCount * 50` for
startDelay. resumeArgv is resumeData?.argv (none when no checkpoint was
loaded); argv is the new invocation's CLI record. -/
def resolveConfig (resumeArgv : Option Argv) (argv : Argv) (latestRelease : String) :
    ResolvedConfig :=
  let version := orStr (resumeArgv.bind (·.mcVersion)) (orStr argv.mcVersion latestRelease)
  let repeatCount := orNum (resumeArgv.map (·.repeatArg)) argv.repeatArg
  let threads := orNum (resumeArgv.map (·.threads)) argv.threads
  let startDelay :=
    orNum (resumeArgv.map (·.startDelay)) (orNum (some argv.startDelay) (repeatCount * 50))
  let retryDelay := orNum (resumeArgv.map (·.retryDelay)) argv.retryDelay
  let transEngine := orStr (resumeArgv.map (·.transEngine)) argv.transEngine
  let extraTransArgs := orStr (resumeArgv.map (·.extraTransArgs)) argv.extraTransArgs
  let engine := orStr (resumeArgv.map (·.engine)) argv.engine
  ⟨version, repeatCount, threads, startDelay, retryDelay, transEngine, extraTransArgs, engine⟩

/-- The back-translation step in isolation (main.js lines 188-197): the text
after one attempted translation to "en" at clock t, keeping the input text
when the call fails. -/
def backText (env : LeafEnv) (t : Nat) (text : String) : String :=
  match env.tr t text "en" with
  | .ret s => s
  | .err => text

mutual
/-- The tree a zero-pass walk produces (derived characterization): structure
unchanged, each string leaf replaced by the back-translation of its original
text at clock 0. -/
def zeroPassTree (env : String → LeafEnv) : Json → String → Json
  | .str s, pfx => .str (backText (env pfx) 0 s)
  | .arr elems, pfx => .arr (zeroPassList env elems pfx 0)
  | .obj fields, pfx => .obj (zeroPassObj env fields pfx)
  | .num n, _ => .num n
  | .bool b, _ => .bool b
  | .null, _ => .null

/-- zeroPassTree over array elements. -/
def zeroPassList (env : String → LeafEnv) : List Json → String → Nat → List Json
  | [], _, _ => []
  | x :: xs, pfx, i =>
    zeroPassTree env x (pfx ++ "[" ++ toString i ++ "]") :: zeroPassList env xs pfx (i + 1)

/-- zeroPassTree over object fields. -/
def zeroPassObj (env : String → LeafEnv) : List (String × Json) → String → List (String × Json)
  | [], _ => []
  | (k, v) :: rest, pfx =>
    (k, zeroPassTree env v (if pfx = "" then k else pfx ++ "." ++ k)) :: zeroPassObj env rest pfx
end

mutual
/-- The event trace of a zero-pass walk (derived characterization): exactly
one back event per string leaf, in leaf order. -/
def backTrace : Json → String → List Ev
  | .str _, pfx => [.back pfx]
  | .arr elems, pfx => backTraceList elems pfx 0
  | .obj fields, pfx => backTraceObj fields pfx
  | .num _, _ => []
  | .bool _, _ => []
  | .null, _ => []

/-- backTrace over array elements. -/
def backTraceList : List Json → String → Nat → List Ev
  | [], _, _ => []
  | x :: xs, pfx, i =>
    backTrace x (pfx ++ "[" ++ toString i ++ "]") ++ backTraceList xs pfx (i + 1)

/-- backTrace over object fields. -/
def backTraceObj : List (String × Json) → String → List Ev
  | [], _ => []
  | (k, v) :: rest, pfx =>
    backTrace v (if pfx = "" then k else pfx ++ "." ++ k) ++ backTraceObj rest pfx
end

mutual
/-- Number of string leaves of a document (the translation targets). -/
def leafCount : Json → Nat
  | .str _ => 1
  | .arr elems => leafCountList elems
  | .obj fields => leafCountObj fields
  | .num _ => 0
  | .bool _ => 0
  | .null => 0

/-- leafCount over array elements. -/
def leafCountList : List Json → Nat
  | [] => 0
  | x :: xs => leafCount x + leafCountList xs

/-- leafCount over object fields. -/
def leafCountObj : List (String × Json) → Nat
  | [] => 0
  | (_, v) :: rest => leafCount v + leafCountObj rest
end

/-- Indices of the completed forward passes recorded in an event trace. -/
def passIdxs (es : List Ev) : List Nat :=
  es.filterMap (fun e => match e with | .pass _ i => some i | _ => none)

/-- Number of back-translation invocations recorded in an event trace. -/
def backCount (es : List Ev) : Nat :=
  (es.filter (fun e => match e with | .back _ => true | _ => false)).length

/-- The CLI record at its yargs defaults (main.js lines 18-28), used as a
concrete run configuration in witnesses. -/
def argvDefaults : Argv :=
  ⟨none, 20, 10, 0, 10000, "google-api", "", "google", false⟩

/-- A leaf oracle whose backend always succeeds with "z", always draws "fr",
and never observes a cancellation. -/
def envAllOk : LeafEnv :=
  ⟨fun _ _ _ => .ret "z", fun _ => "fr", fun _ => false⟩

/-- A leaf oracle whose first backend call fails and where the cancellation
flag is observed from clock 1 on: the SIGINT arrives during the first retry
sleep. -/
def envCancelDuringRetry : LeafEnv :=
  ⟨fun _ _ _ => .err, fun _ => "xx", fun t => decide (1 ≤ t)⟩

/-- A leaf oracle whose backend always returns "Bonjour" and where the
cancellation flag is observed from clock 1 on: the SIGINT arrives during the
first pass's (successful) backend call. -/
def envCancelAfterFirstPass : LeafEnv :=
  ⟨fun _ _ _ => .ret "Bonjour", fun _ => "fr", fun t => decide (1 ≤ t)⟩

/-- A leaf oracle whose backend translates any text to "Howdy" (also when the
target is "en") and never fails, with no cancellation. -/
def envHowdy : LeafEnv :=
  ⟨fun _ _ _ => .ret "Howdy", fun _ => "de", fun _ => false⟩

/-- Two-string-leaf document used by the checkpoint-content analysis. -/
def docTwoLeaves : Json := .obj [("a", .str "Hello"), ("b", .str "World")]

/-- One-string-leaf document used by the zero-pass analysis. -/
def docHello : Json := .obj [("a", .str "Hello")]

/-- A task family where item 0 fails twice then returns 42, and every other
item immediately returns 9 (used by the retry analysis). -/
def taskFailTwice : Nat → Nat → Option Nat :=
  fun i k => if i = 0 then (if k < 2 then none else some 42) else some 9

theorem progGet_progSet_self (p : Progress) (k : String) (v : Nat) :
    progGet (progSet p k v) k = some v := by
  induction p with
  | nil => simp [progSet, progGet]
  | cons hd tl ih =>
    obtain ⟨k', v'⟩ := hd
    by_cases h : k' = k
    · simp [progSet, progGet, h]
    · simp [progSet, progGet, h, ih]

theorem passIdxs_nil : passIdxs [] = [] := rfl

theorem passIdxs_fwd (p l : String) (i : Nat) (es : List Ev) :
    passIdxs (.fwd p i l :: es) = passIdxs es := rfl

theorem passIdxs_pass (p : String) (i : Nat) (es : List Ev) :
    passIdxs (.pass p i :: es) = i :: passIdxs es := rfl

theorem passIdxs_back (p : String) (es : List Ev) :
    passIdxs (.back p :: es) = passIdxs es := rfl

theorem passIdxs_append (es1 es2 : List Ev) :
    passIdxs (es1 ++ es2) = passIdxs es1 ++ passIdxs es2 :=
  List.filterMap_append ..

theorem backCount_nil : backCount [] = 0 := rfl

theorem backCount_fwd (p l : String) (i : Nat) (es : List Ev) :
    backCount (.fwd p i l :: es) = backCount es := rfl

theorem backCount_pass (p : String) (i : Nat) (es : List Ev) :
    backCount (.pass p i :: es) = backCount es := rfl

theorem backCount_append (es1 es2 : List Ev) :
    backCount (es1 ++ es2) = backCount es1 + backCount es2 := by
  simp [backCount, List.filter_append]

/-- Under a never-set cancellation flag the attempt loop can only exit by
success, and its trace contains forward attempts only. -/
theorem stringAttemptLoop_noExit (env : LeafEnv) (path : String) (passIdx : Nat)
    (hex : ∀ t, env.exitAt t = false) :
    ∀ (fuel t : Nat) (text lang : String) (r : InnerRes) (es : List Ev),
      stringAttemptLoop env path passIdx fuel t text lang = some (r, es) →
      (∃ t' s', r = .succ t' s') ∧ passIdxs es = [] ∧ backCount es = 0 := by
  intro fuel
  induction fuel with
  | zero =>
    intro t text lang r es h
    simp [stringAttemptLoop] at h
  | succ fuel ih =>
    intro t text lang r es h
    rw [stringAttemptLoop] at h
    rw [hex t] at h
    simp only [Bool.false_eq_true, if_false] at h
    split at h
    · rename_i s heq
      split at h
      · rw [Option.map_eq_some'] at h
        obtain ⟨⟨r1, es1⟩, hrec, heqq⟩ := h
        obtain ⟨hsucc, hp, hb⟩ := ih _ _ _ _ _ hrec
        have h1 : r1 = r := congrArg Prod.fst heqq
        have h2 : Ev.fwd path passIdx lang :: es1 = es := congrArg Prod.snd heqq
        subst h1; subst h2
        exact ⟨hsucc, by simpa [passIdxs_fwd] using hp, by simpa [backCount_fwd] using hb⟩
      · simp only [Option.some.injEq, Prod.mk.injEq] at h
        obtain ⟨h1, h2⟩ := h
        subst h1; subst h2
        exact ⟨⟨_, _, rfl⟩, rfl, rfl⟩
    · rename_i heq
      rw [Option.map_eq_some'] at h
      obtain ⟨⟨r1, es1⟩, hrec, heqq⟩ := h
      obtain ⟨hsucc, hp, hb⟩ := ih _ _ _ _ _ hrec
      have h1 : r1 = r := congrArg Prod.fst heqq
      have h2 : Ev.fwd path passIdx lang :: es1 = es := congrArg Prod.snd heqq
      subst h1; subst h2
      exact ⟨hsucc, by simpa [passIdxs_fwd] using hp, by simpa [backCount_fwd] using hb⟩

/-- Under a never-set cancellation flag, a pass loop that finishes from pass
index i runs exactly the passes i, i+1, ..., times-1 in order and ends with
the single back-translation event. -/
theorem stringPassLoop_noExit_events (env : LeafEnv) (path origObj : String) (argv : Argv)
    (times fuel : Nat) (hex : ∀ t, env.exitAt t = false) :
    ∀ (gas i t : Nat) (text : String) (progress : Progress)
      (tf : Nat) (textf : String) (pf : Progress) (es : List Ev),
      stringPassLoop env path origObj argv times fuel gas i t text progress =
        some (.finished tf textf pf, es) →
      ∃ es0, es = es0 ++ [Ev.back path] ∧ passIdxs es0 = List.range' i (times - i) ∧
        backCount es0 = 0 := by
  intro gas
  induction gas with
  | zero =>
    intro i t text progress tf textf pf es h
    rw [stringPassLoop] at h
    by_cases hi : i < times
    · rw [if_pos ⟨hi, hex t⟩] at h
      simp at h
    · rw [if_neg (fun hc => hi hc.1)] at h
      have htimes : times - i = 0 := by omega
      split at h
      all_goals
        simp only [Option.some.injEq, Prod.mk.injEq] at h
      all_goals
        obtain ⟨h1, h2⟩ := h
      all_goals
        subst h2
      all_goals
        exact ⟨[], rfl, by simp [htimes, passIdxs_nil], rfl⟩
  | succ gas ih =>
    intro i t text progress tf textf pf es h
    rw [stringPassLoop] at h
    by_cases hi : i < times
    · rw [if_pos ⟨hi, hex t⟩] at h
      split at h
      · simp at h
      · rename_i t' text' es1 hal
        obtain ⟨⟨t'', s'', hsucc⟩, hp1, hb1⟩ :=
          stringAttemptLoop_noExit env path i hex _ _ _ _ _ _ hal
        simp only [hex t', Bool.false_eq_true, if_false] at h
        rw [Option.map_eq_some'] at h
        obtain ⟨⟨r2, es2⟩, hrec, heqq⟩ := h
        cases r2 with
        | exited sv =>
          have : LeafRes.exited sv = LeafRes.finished tf textf pf := congrArg Prod.fst heqq
          simp at this
        | finished t2 text2 p2 =>
          have h2 : es1 ++ Ev.pass path i :: es2 = es := congrArg Prod.snd heqq
          subst h2
          obtain ⟨es0, hes0, hpass0, hback0⟩ := ih _ _ _ _ _ _ _ _ hrec
          refine ⟨es1 ++ Ev.pass path i :: es0, by rw [hes0]; simp, ?_, ?_⟩
          · rw [passIdxs_append, hp1, passIdxs_pass, hpass0]
            have hstep : times - i = (times - (i + 1)) + 1 := by omega
            rw [hstep, List.range'_succ i _ 1]
            simp
          · rw [backCount_append, hb1, backCount_pass, hback0]
      · rename_i t' text' es1 hal
        obtain ⟨⟨t'', s'', hsucc⟩, hp1, hb1⟩ :=
          stringAttemptLoop_noExit env path i hex _ _ _ _ _ _ hal
        simp at hsucc
    · rw [if_neg (fun hc => hi hc.1)] at h
      have htimes : times - i = 0 := by omega
      split at h
      all_goals
        simp only [Option.some.injEq, Prod.mk.injEq] at h
      all_goals
        obtain ⟨h1, h2⟩ := h
      all_goals
        subst h2
      all_goals
        exact ⟨[], rfl, by simp [htimes, passIdxs_nil], rfl⟩

/-- C2: for a string leaf at path P whose Progress Map entry records count c
with 0 <= c < repeatPasses, a completed leaf run performs exactly
repeatPasses - c forward passes, namely passes c, c+1, ..., repeatPasses-1 in
order (never re-running passes 0..c-1), followed by the single
back-translation pass as the final event. -/
theorem leaf_resume_runs_remaining_passes (env : LeafEnv) (path : String) (argv : Argv)
    (times fuel c : Nat) (s : String) (progress : Progress)
    (hc : progGetD progress path = c) (hlt : c < times)
    (hex : ∀ t, env.exitAt t = false)
    (tf : Nat) (textf : String) (pf : Progress) (es : List Ev)
    (hrun : translateString env path argv times fuel s progress = some (.finished tf textf pf, es)) :
    ∃ es0, es = es0 ++ [Ev.back path] ∧ passIdxs es0 = List.range' c (times - c) ∧
      backCount es0 = 0 := by
  rw [translateString] at hrun
  by_cases h0 : progGetD progress path = 0
  · rw [if_pos h0] at hrun
    have hstart : progGetD (progSet progress path 0) path = 0 := by
      simp [progGetD, progGet_progSet_self]
    rw [hstart] at hrun
    have hc0 : c = 0 := by omega
    subst hc0
    exact stringPassLoop_noExit_events env path s argv times fuel hex _ _ _ _ _ _ _ _ _ hrun
  · rw [if_neg h0] at hrun
    rw [hc] at hrun
    exact stringPassLoop_noExit_events env path s argv times fuel hex _ _ _ _ _ _ _ _ _ hrun

/-- Witness for leaf_resume_runs_remaining_passes: a leaf of "Hello" at path
"p" recorded at count 1 with repeatPasses = 2 runs exactly pass 1 and then the
back-translation. -/
theorem leaf_resume_runs_remaining_passes_witness :
    ∃ es0, [Ev.fwd "p" 1 "fr", Ev.pass "p" 1, Ev.back "p"] = es0 ++ [Ev.back "p"] ∧
      passIdxs es0 = List.range' 1 (2 - 1) ∧ backCount es0 = 0 :=
  leaf_resume_runs_remaining_passes envAllOk "p" argvDefaults 2 3 1 "Hello" [("p", 1)]
    rfl (by decide) (fun _ => rfl) 2 "z" [("p", 2)] _ rfl

/-- C8: once the pass counter has completed all repeatPasses forward passes,
the code makes exactly one back-translation attempt to "en"; when it fails
the leaf's text is returned unchanged (the text of the last successful
forward pass), with no retry and no error propagated to the caller. -/
theorem back_translation_single_attempt (env : LeafEnv) (path origObj : String) (argv : Argv)
    (times fuel gas i t : Nat) (text : String) (progress : Progress)
    (h : times ≤ i) :
    stringPassLoop env path origObj argv times fuel gas i t text progress =
      some (.finished (t + 1) (backText env t text) progress, [Ev.back path]) := by
  rw [stringPassLoop.eq_def]
  rw [if_neg (fun hc => (Nat.not_lt.mpr h) hc.1)]
  cases htr : env.tr t text "en" <;> simp [backText, htr]

/-- Witness for back_translation_single_attempt at a concrete state. -/
theorem back_translation_single_attempt_witness :
    stringPassLoop envAllOk "p" "o" argvDefaults 2 3 0 2 5 "hi" [] =
      some (.finished 6 (backText envAllOk 5 "hi") [], [Ev.back "p"]) :=
  back_translation_single_attempt envAllOk "p" "o" argvDefaults 2 3 0 2 5 "hi" [] (by decide)

/-- C6 (code bug): when the attempt loop of pass 0 is exited by cancellation
before any successful translation (first call fails, SIGINT during the retry
sleep), line 179 still records progress["a"] = 1 in the checkpoint, although
no pass ever succeeded (the trace holds no pass-completed event). -/
theorem progress_advances_without_success :
    translateString envCancelDuringRetry "a" argvDefaults 5 3 "Hello" [] =
      some (.exited ⟨.str "Hello", [("a", 1)], argvDefaults⟩, [Ev.fwd "a" 0 "xx"]) ∧
    passIdxs [Ev.fwd "a" 0 "xx"] = [] :=
  ⟨rfl, rfl⟩

/-- C1 (code bug): cancelling while the walker is inside leaf "a" of the
two-leaf document makes line 183 write a checkpoint whose json field is the
string "Hello" - the in-flight leaf's original text - rather than the full
in-progress Document tree; its shape is not even the document's shape, so
loading it cannot reconstruct the Document/Progress Map pair. -/
theorem checkpoint_saves_leaf_string_not_tree :
    translateJsonConcurrent (fun _ => envCancelAfterFirstPass) argvDefaults 5 3
        docTwoLeaves "" [] =
      .exited ⟨.str "Hello", [("a", 1)], argvDefaults⟩ ∧
    (Json.str "Hello").shape ≠ docTwoLeaves.shape :=
  ⟨rfl, fun h => Shape.noConfusion h⟩

/-- C3 counterexample: with a checkpoint storing repeat = 0 and
extraTransArgs = "", the resumed run does not use these stored values: the
JS || fallback on lines 216-223 treats them as falsy and the new
invocation's values (20 and "-x") supersede them. -/
theorem resume_config_zero_not_restored :
    (⟨some "1.20.1", 0, 10, 0, 10000, "google-api", "", "google", false⟩ : Argv).repeatArg = 0 ∧
    (⟨some "1.20.1", 0, 10, 0, 10000, "google-api", "", "google", false⟩ : Argv).extraTransArgs = "" ∧
    (resolveConfig (some ⟨some "1.20.1", 0, 10, 0, 10000, "google-api", "", "google", false⟩)
        ⟨none, 20, 10, 0, 10000, "google-api", "-x", "google", true⟩ "1.21").repeatCount = 20 ∧
    (resolveConfig (some ⟨some "1.20.1", 0, 10, 0, 10000, "google-api", "", "google", false⟩)
        ⟨none, 20, 10, 0, 10000, "google-api", "-x", "google", true⟩ "1.21").extraTransArgs = "-x" :=
  ⟨rfl, rfl, rfl, rfl⟩

/-- C3 (amended): each stored configuration field supersedes the new
invocation's value exactly when it is truthy (a nonzero number or a nonempty
string); a stored 0 or empty string falls back to the new invocation's value,
startDelay falling further back to repeatCount * 50 and the version to the
latest release. -/
theorem resolveConfig_truthy_fields (stored argv : Argv) (latest : String) :
    (resolveConfig (some stored) argv latest).repeatCount =
      (if stored.repeatArg = 0 then argv.repeatArg else stored.repeatArg) ∧
    (resolveConfig (some stored) argv latest).threads =
      (if stored.threads = 0 then argv.threads else stored.threads) ∧
    (resolveConfig (some stored) argv latest).retryDelay =
      (if stored.retryDelay = 0 then argv.retryDelay else stored.retryDelay) ∧
    (resolveConfig (some stored) argv latest).transEngine =
      (if stored.transEngine = "" then argv.transEngine else stored.transEngine) ∧
    (resolveConfig (some stored) argv latest).extraTransArgs =
      (if stored.extraTransArgs = "" then argv.extraTransArgs else stored.extraTransArgs) ∧
    (resolveConfig (some stored) argv latest).engine =
      (if stored.engine = "" then argv.engine else stored.engine) ∧
    (resolveConfig (some stored) argv latest).version =
      orStr stored.mcVersion (orStr argv.mcVersion latest) ∧
    (resolveConfig (some stored) argv latest).startDelay =
      (if stored.startDelay = 0 then
        (if argv.startDelay = 0 then
          (if stored.repeatArg = 0 then argv.repeatArg else stored.repeatArg) * 50
        else argv.startDelay)
      else stored.startDelay) := by
  exact ⟨rfl, rfl, rfl, rfl, rfl, rfl, rfl, rfl⟩

mutual
/-- A walk that returns a tree preserves the shape of its input node. -/
theorem walkShape_aux (env : String → LeafEnv) (argv : Argv) (times fuel : Nat) :
    ∀ (j : Json) (pfx : String) (progress : Progress) (r : Json) (p : Progress) (es : List Ev),
      translateJsonConcurrent env argv times fuel j pfx progress = .ok r p es →
      r.shape = j.shape
  | .str s, pfx, progress, r, p, es => by
    intro h
    simp only [translateJsonConcurrent] at h
    split at h
    · simp at h
    · simp only [WalkRes.ok.injEq] at h
      obtain ⟨h1, h2, h3⟩ := h
      subst h1
      rfl
    · simp at h
  | .arr elems, pfx, progress, r, p, es => by
    intro h
    simp only [translateJsonConcurrent] at h
    split at h
    · rename_i rs p2 es2 heq
      simp only [WalkRes.ok.injEq] at h
      obtain ⟨h1, h2, h3⟩ := h
      subst h1
      have ih := walkArrShape_aux env argv times fuel elems pfx 0 progress rs p2 es2 heq
      simp [Json.shape, ih]
    · simp at h
    · simp at h
  | .obj fields, pfx, progress, r, p, es => by
    intro h
    simp only [translateJsonConcurrent] at h
    split at h
    · rename_i rs p2 es2 heq
      simp only [WalkRes.ok.injEq] at h
      obtain ⟨h1, h2, h3⟩ := h
      subst h1
      have ih := walkObjShape_aux env argv times fuel fields pfx progress rs p2 es2 heq
      simp [Json.shape, ih]
    · simp at h
    · simp at h
  | .num n, pfx, progress, r, p, es => by
    intro h
    simp only [translateJsonConcurrent, WalkRes.ok.injEq] at h
    obtain ⟨h1, h2, h3⟩ := h
    subst h1
    rfl
  | .bool b, pfx, progress, r, p, es => by
    intro h
    simp only [translateJsonConcurrent, WalkRes.ok.injEq] at h
    obtain ⟨h1, h2, h3⟩ := h
    subst h1
    rfl
  | .null, pfx, progress, r, p, es => by
    intro h
    simp only [translateJsonConcurrent, WalkRes.ok.injEq] at h
    obtain ⟨h1, h2, h3⟩ := h
    subst h1
    rfl

/-- A walk over array elements preserves the element shapes. -/
theorem walkArrShape_aux (env : String → LeafEnv) (argv : Argv) (times fuel : Nat) :
    ∀ (xs : List Json) (pfx : String) (i : Nat) (progress : Progress)
      (rs : List Json) (p : Progress) (es : List Ev),
      translateArr env argv times fuel xs pfx i progress = .ok rs p es →
      shapeList rs = shapeList xs
  | [], pfx, i, progress, rs, p, es => by
    intro h
    simp only [translateArr, WalkListRes.ok.injEq] at h
    obtain ⟨h1, h2, h3⟩ := h
    subst h1
    rfl
  | x :: xs, pfx, i, progress, rs, p, es => by
    intro h
    simp only [translateArr] at h
    split at h
    · rename_i rx p1 e1 heq1
      split at h
      · rename_i rs2 p2 e2 heq2
        simp only [WalkListRes.ok.injEq] at h
        obtain ⟨h1, h2, h3⟩ := h
        subst h1
        have ihx := walkShape_aux env argv times fuel x _ progress rx p1 e1 heq1
        have ihs := walkArrShape_aux env argv times fuel xs pfx (i + 1) p1 rs2 p2 e2 heq2
        simp [shapeList, ihx, ihs]
      · simp at h
      · simp at h
    · simp at h
    · simp at h

/-- A walk over object fields preserves keys, their order and value shapes. -/
theorem walkObjShape_aux (env : String → LeafEnv) (argv : Argv) (times fuel : Nat) :
    ∀ (kvs : List (String × Json)) (pfx : String) (progress : Progress)
      (rs : List (String × Json)) (p : Progress) (es : List Ev),
      translateObj env argv times fuel kvs pfx progress = .ok rs p es →
      shapeObj rs = shapeObj kvs
  | [], pfx, progress, rs, p, es => by
    intro h
    simp only [translateObj, WalkObjRes.ok.injEq] at h
    obtain ⟨h1, h2, h3⟩ := h
    subst h1
    rfl
  | (k, v) :: rest, pfx, progress, rs, p, es => by
    intro h
    simp only [translateObj] at h
    split at h
    · rename_i rv p1 e1 heq1
      split at h
      · rename_i rs2 p2 e2 heq2
        simp only [WalkObjRes.ok.injEq] at h
        obtain ⟨h1, h2, h3⟩ := h
        subst h1
        have ihv := walkShape_aux env argv times fuel v _ progress rv p1 e1 heq1
        have ihs := walkObjShape_aux env argv times fuel rest pfx p1 rs2 p2 e2 heq2
        simp [shapeObj, ihv, ihs]
      · simp at h
      · simp at h
    · simp at h
    · simp at h
end

/-- C4: for every Document, a walk that returns a tree (no cancellation, no
stuck retry) returns one of the same shape: same object key sets in the same
order, same array lengths and element order, same node type at every path. -/
theorem walk_preserves_shape (env : String → LeafEnv) (argv : Argv) (times fuel : Nat)
    (j : Json) (pfx : String) (progress : Progress) (r : Json) (p : Progress) (es : List Ev)
    (h : translateJsonConcurrent env argv times fuel j pfx progress = .ok r p es) :
    r.shape = j.shape :=
  walkShape_aux env argv times fuel j pfx progress r p es h

/-- Witness for walk_preserves_shape on a concrete two-node document. -/
theorem walk_preserves_shape_witness :
    (Json.obj [("a", .str "z"), ("b", .arr [.str "z", .null])]).shape =
      (Json.obj [("a", .str "x"), ("b", .arr [.str "y", .null])]).shape :=
  walk_preserves_shape (fun _ => envAllOk) argvDefaults 1 3
    (Json.obj [("a", .str "x"), ("b", .arr [.str "y", .null])]) "" []
    (Json.obj [("a", .str "z"), ("b", .arr [.str "z", .null])])
    [("a", 1), ("b[0]", 1)]
    [.fwd "a" 0 "fr", .pass "a" 0, .back "a", .fwd "b[0]" 0 "fr", .pass "b[0]" 0, .back "b[0]"]
    rfl

mutual
/-- With zero passes the walk always returns a tree: each leaf goes straight
to the single back-translation of its original text. -/
theorem walkZero_eq_aux (env : String → LeafEnv) (argv : Argv) (fuel : Nat) :
    ∀ (j : Json) (pfx : String) (progress : Progress),
      ∃ p', translateJsonConcurrent env argv 0 fuel j pfx progress =
        .ok (zeroPassTree env j pfx) p' (backTrace j pfx)
  | .str s, pfx, progress => by
    refine ⟨if progGetD progress pfx = 0 then progSet progress pfx 0 else progress, ?_⟩
    simp only [translateJsonConcurrent, translateString]
    rw [stringPassLoop.eq_def]
    rw [if_neg (fun hc => Nat.not_lt_zero _ hc.1)]
    cases htr : (env pfx).tr 0 s "en" <;>
      simp [zeroPassTree, backTrace, backText, htr]
  | .arr elems, pfx, progress => by
    obtain ⟨p', h⟩ := walkZeroList_eq_aux env argv fuel elems pfx 0 progress
    exact ⟨p', by simp only [translateJsonConcurrent, h, zeroPassTree, backTrace]⟩
  | .obj fields, pfx, progress => by
    obtain ⟨p', h⟩ := walkZeroObj_eq_aux env argv fuel fields pfx progress
    exact ⟨p', by simp only [translateJsonConcurrent, h, zeroPassTree, backTrace]⟩
  | .num n, pfx, progress => ⟨progress, rfl⟩
  | .bool b, pfx, progress => ⟨progress, rfl⟩
  | .null, pfx, progress => ⟨progress, rfl⟩

/-- walkZero_eq_aux over array elements. -/
theorem walkZeroList_eq_aux (env : String → LeafEnv) (argv : Argv) (fuel : Nat) :
    ∀ (xs : List Json) (pfx : String) (i : Nat) (progress : Progress),
      ∃ p', translateArr env argv 0 fuel xs pfx i progress =
        .ok (zeroPassList env xs pfx i) p' (backTraceList xs pfx i)
  | [], pfx, i, progress => ⟨progress, rfl⟩
  | x :: xs, pfx, i, progress => by
    obtain ⟨p1, h1⟩ := walkZero_eq_aux env argv fuel x (pfx ++ "[" ++ toString i ++ "]") progress
    obtain ⟨p2, h2⟩ := walkZeroList_eq_aux env argv fuel xs pfx (i + 1) p1
    exact ⟨p2, by simp only [translateArr, h1, h2, zeroPassList, backTraceList]⟩

/-- walkZero_eq_aux over object fields. -/
theorem walkZeroObj_eq_aux (env : String → LeafEnv) (argv : Argv) (fuel : Nat) :
    ∀ (kvs : List (String × Json)) (pfx : String) (progress : Progress),
      ∃ p', translateObj env argv 0 fuel kvs pfx progress =
        .ok (zeroPassObj env kvs pfx) p' (backTraceObj kvs pfx)
  | [], pfx, progress => ⟨progress, rfl⟩
  | (k, v) :: rest, pfx, progress => by
    obtain ⟨p1, h1⟩ :=
      walkZero_eq_aux env argv fuel v (if pfx = "" then k else pfx ++ "." ++ k) progress
    obtain ⟨p2, h2⟩ := walkZeroObj_eq_aux env argv fuel rest pfx p1
    exact ⟨p2, by simp only [translateObj, h1, h2, zeroPassObj, backTraceObj]⟩
end

mutual
/-- The zero-pass tree has the shape of its input. -/
theorem zeroShape_aux (env : String → LeafEnv) :
    ∀ (j : Json) (pfx : String), (zeroPassTree env j pfx).shape = j.shape
  | .str s, pfx => rfl
  | .arr elems, pfx => by
    simp only [zeroPassTree, Json.shape]
    rw [zeroShapeList_aux env elems pfx 0]
  | .obj fields, pfx => by
    simp only [zeroPassTree, Json.shape]
    rw [zeroShapeObj_aux env fields pfx]
  | .num n, _ => rfl
  | .bool b, _ => rfl
  | .null, _ => rfl

/-- zeroShape_aux over array elements. -/
theorem zeroShapeList_aux (env : String → LeafEnv) :
    ∀ (xs : List Json) (pfx : String) (i : Nat),
      shapeList (zeroPassList env xs pfx i) = shapeList xs
  | [], _, _ => rfl
  | x :: xs, pfx, i => by
    simp only [zeroPassList, shapeList]
    rw [zeroShape_aux env x _, zeroShapeList_aux env xs pfx (i + 1)]

/-- zeroShape_aux over object fields. -/
theorem zeroShapeObj_aux (env : String → LeafEnv) :
    ∀ (kvs : List (String × Json)) (pfx : String),
      shapeObj (zeroPassObj env kvs pfx) = shapeObj kvs
  | [], _ => rfl
  | (k, v) :: rest, pfx => by
    simp only [zeroPassObj, shapeObj]
    rw [zeroShape_aux env v _, zeroShapeObj_aux env rest pfx]
end

mutual
/-- The zero-pass trace holds exactly one back-translation per string leaf. -/
theorem backTrace_count_aux : ∀ (j : Json) (pfx : String),
    backCount (backTrace j pfx) = leafCount j
  | .str s, pfx => rfl
  | .arr elems, pfx => by
    simp only [backTrace, leafCount]
    exact backTraceList_count_aux elems pfx 0
  | .obj fields, pfx => by
    simp only [backTrace, leafCount]
    exact backTraceObj_count_aux fields pfx
  | .num n, _ => rfl
  | .bool b, _ => rfl
  | .null, _ => rfl

/-- backTrace_count_aux over array elements. -/
theorem backTraceList_count_aux : ∀ (xs : List Json) (pfx : String) (i : Nat),
    backCount (backTraceList xs pfx i) = leafCountList xs
  | [], _, _ => rfl
  | x :: xs, pfx, i => by
    simp only [backTraceList, leafCountList, backCount_append]
    rw [backTrace_count_aux x _, backTraceList_count_aux xs pfx (i + 1)]

/-- backTrace_count_aux over object fields. -/
theorem backTraceObj_count_aux : ∀ (kvs : List (String × Json)) (pfx : String),
    backCount (backTraceObj kvs pfx) = leafCountObj kvs
  | [], _ => rfl
  | (k, v) :: rest, pfx => by
    simp only [backTraceObj, leafCountObj, backCount_append]
    rw [backTrace_count_aux v _, backTraceObj_count_aux rest pfx]
end

/-- C9 (amended): with repeatPasses = 0, for every document, oracle, fuel and
prior progress, the walker returns a tree of identical structure in which
every string leaf holds the back-translation of its original text (unchanged
only when that back-translation call fails), and the back-translation is
still invoked exactly once per string leaf. -/
theorem walk_zero_passes (env : String → LeafEnv) (argv : Argv) (fuel : Nat)
    (j : Json) (pfx : String) (progress : Progress) :
    (∃ p', translateJsonConcurrent env argv 0 fuel j pfx progress =
        .ok (zeroPassTree env j pfx) p' (backTrace j pfx)) ∧
    (zeroPassTree env j pfx).shape = j.shape ∧
    backCount (backTrace j pfx) = leafCount j :=
  ⟨walkZero_eq_aux env argv fuel j pfx progress, zeroShape_aux env j pfx,
    backTrace_count_aux j pfx⟩

/-- C9 counterexample: with zero forward passes and a backend whose
translation of "Hello" towards "en" is "Howdy", the walk does NOT return the
document unchanged: the mandatory back-translation replaces the leaf text. -/
theorem walk_zero_passes_changes_leaf :
    translateJsonConcurrent (fun _ => envHowdy) argvDefaults 0 3 docHello "" [] =
      .ok (.obj [("a", .str "Howdy")]) [("a", 0)] [Ev.back "a"] ∧
    Json.obj [("a", Json.str "Howdy")] ≠ docHello :=
  ⟨rfl, fun h => by simp [docHello] at h⟩

/-- C10: nodes that are neither objects nor arrays nor strings - null in
particular (despite its JS typeof "object"), numbers and booleans - are
returned by the walker unchanged, with an empty event trace (no translator
call) and the progress map returned untouched (no entry created). -/
theorem walk_passthrough_scalars (env : String → LeafEnv) (argv : Argv) (times fuel : Nat)
    (pfx : String) (progress : Progress) (n : Int) (b : Bool) :
    translateJsonConcurrent env argv times fuel .null pfx progress = .ok .null progress [] ∧
    translateJsonConcurrent env argv times fuel (.num n) pfx progress = .ok (.num n) progress [] ∧
    translateJsonConcurrent env argv times fuel (.bool b) pfx progress = .ok (.bool b) progress [] :=
  ⟨rfl, rfl, rfl⟩

theorem poolFold_none (taskRun : Nat → Nat → Option β) (retryDelay fuel : Nat)
    (sched : List Nat) :
    sched.foldl (poolStep taskRun retryDelay fuel) none = none := by
  induction sched with
  | nil => rfl
  | cons i rest ih => simpa [poolStep] using ih

theorem poolFold_length (taskRun : Nat → Nat → Option β) (retryDelay fuel : Nat) :
    ∀ (sched : List Nat) (res0 res : List (Option β)),
      sched.foldl (poolStep taskRun retryDelay fuel) (some res0) = some res →
      res.length = res0.length := by
  intro sched
  induction sched with
  | nil =>
    intro res0 res h
    simp only [List.foldl_nil, Option.some.injEq] at h
    subst h
    rfl
  | cons j rest ih =>
    intro res0 res h
    rw [List.foldl_cons] at h
    cases hr : retryLoop (taskRun j) retryDelay fuel 0 with
    | none =>
      rw [show poolStep taskRun retryDelay fuel (some res0) j = none from by
          simp [poolStep, hr]] at h
      rw [poolFold_none] at h
      exact Option.noConfusion h
    | some r =>
      rw [show poolStep taskRun retryDelay fuel (some res0) j =
            some (res0.set j (some r.1)) from by simp [poolStep, hr]] at h
      have := ih _ _ h
      simpa [List.length_set] using this

theorem poolFold_get_notMem (taskRun : Nat → Nat → Option β) (retryDelay fuel : Nat) :
    ∀ (sched : List Nat) (res0 res : List (Option β)) (i : Nat),
      i ∉ sched →
      sched.foldl (poolStep taskRun retryDelay fuel) (some res0) = some res →
      res[i]? = res0[i]? := by
  intro sched
  induction sched with
  | nil =>
    intro res0 res i _ h
    simp only [List.foldl_nil, Option.some.injEq] at h
    subst h
    rfl
  | cons j rest ih =>
    intro res0 res i hmem h
    have hne : i ≠ j := fun he => hmem (he ▸ List.mem_cons_self j rest)
    have hnm : i ∉ rest := fun hin => hmem (List.mem_cons_of_mem j hin)
    rw [List.foldl_cons] at h
    cases hr : retryLoop (taskRun j) retryDelay fuel 0 with
    | none =>
      rw [show poolStep taskRun retryDelay fuel (some res0) j = none from by
          simp [poolStep, hr]] at h
      rw [poolFold_none] at h
      exact Option.noConfusion h
    | some r =>
      rw [show poolStep taskRun retryDelay fuel (some res0) j =
            some (res0.set j (some r.1)) from by simp [poolStep, hr]] at h
      rw [ih _ _ i hnm h]
      exact List.getElem?_set_ne (Ne.symm hne)

theorem poolFold_get_mem (taskRun : Nat → Nat → Option β) (retryDelay fuel : Nat) :
    ∀ (sched : List Nat) (res0 res : List (Option β)) (i : Nat),
      i ∈ sched → i < res0.length →
      sched.foldl (poolStep taskRun retryDelay fuel) (some res0) = some res →
      ∃ r, retryLoop (taskRun i) retryDelay fuel 0 = some r ∧ res[i]? = some (some r.1) := by
  intro sched
  induction sched with
  | nil =>
    intro res0 res i hmem
    exact absurd hmem (List.not_mem_nil i)
  | cons j rest ih =>
    intro res0 res i hmem hlen h
    rw [List.foldl_cons] at h
    cases hr : retryLoop (taskRun j) retryDelay fuel 0 with
    | none =>
      rw [show poolStep taskRun retryDelay fuel (some res0) j = none from by
          simp [poolStep, hr]] at h
      rw [poolFold_none] at h
      exact Option.noConfusion h
    | some r =>
      rw [show poolStep taskRun retryDelay fuel (some res0) j =
            some (res0.set j (some r.1)) from by simp [poolStep, hr]] at h
      by_cases hin : i ∈ rest
      · exact ih _ _ i hin (by simpa [List.length_set] using hlen) h
      · have hij : i = j := by
          rcases List.mem_cons.mp hmem with he | hin2
          · exact he
          · exact absurd hin2 hin
        subst hij
        refine ⟨r, hr, ?_⟩
        rw [poolFold_get_notMem taskRun retryDelay fuel rest _ res i hin h]
        simp [List.getElem?_set, hlen]

theorem retryLoop_char (taskRun : Nat → Option β) (retryDelay : Nat) :
    ∀ (K s fuel : Nat) (v : β),
      (∀ k, k < K → taskRun (s + k) = none) → taskRun (s + K) = some v → K < fuel →
      retryLoop taskRun retryDelay fuel s = some (v, s + K + 1, List.replicate K retryDelay) := by
  intro K
  induction K with
  | zero =>
    intro s fuel v hfail hsucc hfuel
    cases fuel with
    | zero => omega
    | succ f =>
      rw [retryLoop]
      rw [show taskRun s = some v from by simpa using hsucc]
      rfl
  | succ K ih =>
    intro s fuel v hfail hsucc hfuel
    cases fuel with
    | zero => omega
    | succ f =>
      have h0 : taskRun s = none := by simpa using hfail 0 (Nat.succ_pos K)
      have hfail' : ∀ k, k < K → taskRun (s + 1 + k) = none := by
        intro k hk
        have := hfail (k + 1) (by omega)
        simpa [Nat.add_comm, Nat.add_assoc, Nat.add_left_comm] using this
      have hsucc' : taskRun (s + 1 + K) = some v := by
        have := hsucc
        simpa [Nat.add_comm, Nat.add_assoc, Nat.add_left_comm] using this
      have hrec := ih (s + 1) f v hfail' hsucc' (by omega)
      rw [retryLoop, h0, hrec]
      rw [Option.map_some']
      rw [show s + 1 + K + 1 = s + (K + 1) + 1 from by omega]
      rfl

/-- C5: for every item count, worker count, task family and slot completion
order (any permutation of the item indices), when the queue returns a result
list, slot i holds exactly item i's accepted value - the value of its retry
sequence's first success - regardless of the completion order. -/
theorem translateQueue_positional (n workerCount : Nat) (taskRun : Nat → Nat → Option β)
    (retryDelay fuel : Nat) (sched : List Nat) (res : List (Option β))
    (hfuel : 0 < fuel)
    (hq : translateQueue n workerCount taskRun retryDelay fuel sched = some res)
    (hsched : sched.Perm (List.range n)) :
    ∀ i, i < n → ∃ r, retryLoop (taskRun i) retryDelay fuel 0 = some r ∧
      res[i]? = some (some r.1) := by
  intro i hi
  rw [translateQueue] at hq
  by_cases hwc : workerCount = 0
  · rw [if_pos hwc] at hq
    by_cases hall : (List.range n).all (fun i => (taskRun i 0).isSome)
    · rw [if_pos hall] at hq
      simp only [Option.some.injEq] at hq
      subst hq
      have hmem : i ∈ List.range n := List.mem_range.mpr hi
      have hsome : (taskRun i 0).isSome := by
        have := List.all_eq_true.mp hall i hmem
        simpa using this
      obtain ⟨v, hv⟩ := Option.isSome_iff_exists.mp hsome
      refine ⟨(v, 1, []), ?_, ?_⟩
      · cases fuel with
        | zero => omega
        | succ f => rw [retryLoop, hv]
      · rw [List.getElem?_map, List.getElem?_range hi]
        simp [hv]
    · rw [if_neg hall] at hq
      exact Option.noConfusion hq
  · rw [if_neg hwc] at hq
    have hmem : i ∈ sched := hsched.mem_iff.mpr (List.mem_range.mpr hi)
    have hlen : i < (List.replicate n (none : Option β)).length := by simpa using hi
    exact poolFold_get_mem taskRun retryDelay fuel sched _ res i hmem hlen hq

/-- Witness for translateQueue_positional: two items completed in reverse
order [1, 0] still land positionally. -/
theorem translateQueue_positional_witness :
    ∃ r, retryLoop (fun _ => some (100 + 0)) 7 1 0 = some r ∧
      ([some 100, some 101] : List (Option Nat))[0]? = some (some r.1) :=
  translateQueue_positional 2 1 (fun i _ => some (100 + i)) 7 1 [1, 0] [some 100, some 101]
    (by decide) rfl (by decide) 0 (by decide)

/-- C7: in a pooled run, an item whose task fails exactly K times and then
succeeds is invoked exactly K + 1 times with the configured retry delay slept
between consecutive attempts, its result slot holds the (K+1)-th invocation's
output, and every other item still gets a result. -/
theorem translateQueue_retries_failing_item (n workerCount : Nat)
    (taskRun : Nat → Nat → Option β) (retryDelay fuel : Nat) (sched : List Nat)
    (res : List (Option β)) (j K : Nat) (v : β)
    (hwc : workerCount ≠ 0) (hj : j < n)
    (hfail : ∀ k, k < K → taskRun j k = none)
    (hsucc : taskRun j K = some v)
    (hfuel : K < fuel)
    (hq : translateQueue n workerCount taskRun retryDelay fuel sched = some res)
    (hsched : sched.Perm (List.range n)) :
    retryLoop (taskRun j) retryDelay fuel 0 = some (v, K + 1, List.replicate K retryDelay) ∧
    res[j]? = some (some v) ∧
    (∀ i, i < n → ∃ w, res[i]? = some (some w)) := by
  have hchar : retryLoop (taskRun j) retryDelay fuel 0 =
      some (v, K + 1, List.replicate K retryDelay) := by
    have := retryLoop_char (taskRun j) retryDelay K 0 fuel v
      (by simpa using hfail) (by simpa using hsucc) hfuel
    simpa using this
  rw [translateQueue, if_neg hwc] at hq
  have hpos : ∀ i, i < n → ∃ r, retryLoop (taskRun i) retryDelay fuel 0 = some r ∧
      res[i]? = some (some r.1) := fun i hi =>
    poolFold_get_mem taskRun retryDelay fuel sched _ res i
      (hsched.mem_iff.mpr (List.mem_range.mpr hi)) (by simpa using hi) hq
  refine ⟨hchar, ?_, ?_⟩
  · obtain ⟨r, hr, hres⟩ := hpos j hj
    rw [hchar] at hr
    have hrv : r = (v, K + 1, List.replicate K retryDelay) := by
      simpa using hr.symm
    subst hrv
    simpa using hres
  · intro i hi
    obtain ⟨r, _, hres⟩ := hpos i hi
    exact ⟨r.1, hres⟩

/-- Witness for translateQueue_retries_failing_item: item 0 fails twice, is
invoked 3 times with two retry sleeps of 5, and slot 0 holds its third
invocation's output 42; item 1 is unaffected. -/
theorem translateQueue_retries_failing_item_witness :
    retryLoop (taskFailTwice 0) 5 4 0 = some (42, 2 + 1, List.replicate 2 5) ∧
    ([some 42, some 9] : List (Option Nat))[0]? = some (some 42) ∧
    (∀ i, i < 2 → ∃ w, ([some 42, some 9] : List (Option Nat))[i]? = some (some w)) :=
  translateQueue_retries_failing_item 2 1 taskFailTwice 5 4 [0, 1] [some 42, some 9] 0 2 42
    (by decide) (by decide) (by decide) (by decide) (by decide) rfl (by decide)
